import Mathlib

/-!
# Verification of the draw-to-select highlight reader

Shallow embedding of the core logic of `src/App.js` (the current version of
the `App` component: `getWordData`, `findLineY`, `findIntersectingWords`,
`handlePointerDown`, `handlePointerMove`, `handlePointerUp`,
the state update of `fetchExplanation`, `removeHighlight`, `clearAll`,
`loadNewContent`, `sanitizeHtml`).

Modelling conventions:
* Viewport coordinates (a JS `number`) are modelled as `ℚ`; `Math.round x`
  is `⌊x + 1/2⌋`, which agrees with JS on every finite input.
* The live DOM surface is modelled as a `List (Option Elem)`: the array of
  word elements (`wordRefs.current`, resp. the `.word` spans of the markdown
  surface), with `none` for a null ref.  Event handlers take the current
  surface as an explicit argument, since the code re-queries the DOM on
  every call.
* `String.prototype.toLowerCase` is modelled as character-wise ASCII
  lowering (`jsToLowerCase`), which agrees with JS on ASCII text.
* `Date.now()` is modelled as an explicit `now : ℕ` argument to the
  pointer-up handler.
* The asynchronous explanation fetch is modelled by its eventual state
  update (`fetchExplanationDone`); both the success and the error branch of
  `fetchExplanation` perform the same update with different explanation
  strings, so the final string is a parameter.
-/

namespace HighlightReader

/-- JS `Math.round`: round half toward positive infinity, `⌊x + 1/2⌋`. -/
def jsRound (q : ℚ) : ℤ := Rat.floor (q + 1/2)

/-- A DOM bounding client rect in viewport coordinates. -/
structure Rect where
  left : ℚ
  right : ℚ
  top : ℚ
  bottom : ℚ
deriving DecidableEq

/-- The `rect.width` value exposed by `getBoundingClientRect`. -/
def Rect.width (r : Rect) : ℚ := r.right - r.left

/-- The vertical center `(rect.top + rect.bottom) / 2` of a rect. -/
def Rect.centerY (r : Rect) : ℚ := (r.top + r.bottom) / 2

/-- A live word element of the rendered surface.  `dataIndex` models the
`data-index` attribute (present on markdown word spans, absent on plain-text
word spans). -/
structure Elem where
  text : String
  rect : Rect
  dataIndex : Option ℕ
deriving DecidableEq

/-- A token of the snapshot produced by `getWordData` (the `el` handle is
dropped; it is only used for DOM class manipulation). -/
structure Token where
  index : ℕ
  text : String
  rect : Rect
deriving DecidableEq

/-- One entry of the map step of `getWordData`: positional index `i`, overridden
by the `data-index` attribute when present
(`dataIndex !== null ? parseInt(dataIndex, 10) : index`). -/
def tokenOf (i : ℕ) (e : Elem) : Token :=
  { index := e.dataIndex.getD i, text := e.text, rect := e.rect }

/-- Function `getWordData`: map every non-null element to a token, keeping only those
with `rect.width > 0`
(`.filter(w => w !== null && w.rect.width > 0)`). -/
def getWordData (elems : List (Option Elem)) : List Token :=
  (elems.enum.filterMap (fun p => p.2.map (tokenOf p.1))).filter
    (fun t => decide (0 < t.rect.width))

/-- Append `v` to the bucket with key `k`, creating the bucket at the end if
absent (`if (!lineGroups[key]) lineGroups[key] = []; lineGroups[key].push(...)`). -/
def insertGroup (k : ℤ) (v : ℚ) : List (ℤ × List ℚ) → List (ℤ × List ℚ)
  | [] => [(k, [v])]
  | (k', vs) :: rest =>
      if k' = k then (k', vs ++ [v]) :: rest else (k', vs) :: insertGroup k v rest

/-- One word of the line-group map of `findLineY`: the word contributes its
rounded center `centerY = Math.round((top+bottom)/2)` to the bucket keyed by
`Math.round(centerY / 10) * 10`. -/
def groupStep (gs : List (ℤ × List ℚ)) (w : Token) : List (ℤ × List ℚ) :=
  let centerY : ℤ := jsRound w.rect.centerY
  insertGroup (jsRound ((centerY : ℚ) / 10) * 10) (centerY : ℚ) gs

/-- The line-group map of `findLineY`; buckets are kept in insertion order. -/
def buildGroups (ws : List Token) : List (ℤ × List ℚ) :=
  ws.foldl groupStep []

/-- Whether a JS object key (a canonical integer string) is an array index
(`0 ≤ k < 2^32 - 1`); such keys are enumerated first, in ascending order. -/
def isArrayIndexKey (k : ℤ) : Bool := decide (0 ≤ k ∧ k < 4294967295)

/-- The bucket sequence in the order `Object.values(lineGroups)` yields it:
array-index keys in ascending numeric order first, then the remaining keys
in insertion order.  Keys are pairwise distinct, so any stable sort realises
the ascending part. -/
def scanGroups (gs : List (ℤ × List ℚ)) : List (ℤ × List ℚ) :=
  List.insertionSort (fun a b => a.1 ≤ b.1) (gs.filter (fun g => isArrayIndexKey g.1))
    ++ gs.filter (fun g => ¬ isArrayIndexKey g.1)

/-- The representative Y of a bucket: the arithmetic mean of its members
(`group.reduce((sum, w) => sum + w.centerY, 0) / group.length`). -/
def groupAvg (g : ℤ × List ℚ) : ℚ := (g.2.foldl (· + ·) 0) / (g.2.length : ℚ)

/-- The representative Y of every line, in scan order. -/
def lineReps (ws : List Token) : List ℚ :=
  (scanGroups (buildGroups ws)).map groupAvg

/-- One step of the closest-line scan of `findLineY`: the accumulator is
`(closestLine, closestDist)`, with `none` standing for the initial
`closestLine = null, closestDist = Infinity`, and strict improvement
(`dist < closestDist`). -/
def closestStep (clientY : ℚ) (acc : Option (ℚ × ℚ)) (avgY : ℚ) : Option (ℚ × ℚ) :=
  match acc with
  | none => some (avgY, |clientY - avgY|)
  | some (b, bd) =>
      if |clientY - avgY| < bd then some (avgY, |clientY - avgY|) else some (b, bd)

/-- The closest-line scan of `findLineY` over the bucket representatives. -/
def closestFold (clientY : ℚ) (reps : List ℚ) : Option ℚ :=
  (reps.foldl (closestStep clientY) none).map Prod.fst

/-- Function `findLineY`: `null` when there are no words, else the representative Y
closest to `clientY`. -/
def findLineY (elems : List (Option Elem)) (clientY : ℚ) : Option ℚ :=
  let words := getWordData elems
  if words = [] then none
  else closestFold clientY (lineReps words)

/-- First-minimum selection: the element of `b :: rs` with minimal
`|clientY - ·|`, earliest occurrence winning ties.  Reference function used
to specify `closestFold`. -/
def pickFirstMin (clientY : ℚ) (b : ℚ) : List ℚ → ℚ
  | [] => b
  | r :: rs =>
      if |clientY - r| < |clientY - b| then pickFirstMin clientY r rs
      else pickFirstMin clientY b rs

/-- Function `findIntersectingWords`: fresh snapshot, then keep the words within 15
units of `lineY` whose box overlaps `[min startX endX, max startX endX]`. -/
def findIntersectingWords (elems : List (Option Elem)) (startX endX lineY : ℚ) :
    List Token :=
  let words := getWordData elems
  let minX := min startX endX
  let maxX := max startX endX
  words.filter (fun w =>
    decide (|w.rect.centerY - lineY| ≤ 15 ∧ minX ≤ w.rect.right ∧ w.rect.left ≤ maxX))

/-- The visual gesture span (`line` state): `{ startX, endX, y }`. -/
structure LineSpan where
  startX : ℚ
  endX : ℚ
  y : ℚ
deriving DecidableEq

/-- A highlight card.  `explanation = none` models JS `null`;
`firstWordIndex` is the document-order key. -/
structure Highlight where
  id : ℕ
  text : String
  explanation : Option String
  loading : Bool
  firstWordIndex : ℕ
deriving DecidableEq

/-- The `content` state: `{ type, text, title, source, isMarkdown }`. -/
structure Content where
  type : String
  text : String
  title : String
  source : Option String
  isMarkdown : Bool
deriving DecidableEq

/-- The fields of a pointer event read by the handlers. -/
structure PointerEvent where
  pointerType : String
  shiftKey : Bool
  clientX : ℚ
  clientY : ℚ
deriving DecidableEq

/-- The component state relevant to the highlight core: React state plus the
mutable refs (`wordRefs`, `lineYRef`, `startXRef`). -/
structure AppState where
  highlights : List Highlight
  loadingId : Option ℕ
  line : Option LineSpan
  isDrawing : Bool
  highlightedWordIndices : List (ℕ × List ℕ)
  lineYRef : Option ℚ
  startXRef : Option ℚ
  wordRefs : List (Option Elem)
  content : Content
  contentError : Option String
deriving DecidableEq

/-- JS `String.prototype.toLowerCase`, modelled as character-wise ASCII
lowering (the two agree on ASCII text). -/
def jsToLowerCase (s : String) : String := String.mk (s.data.map Char.toLower)

/-- JS `Math.min(...wordIndices)` for a non-empty index list (the call site is
guarded by `intersecting.length > 0`; the empty case is unreachable and
defaults to 0). -/
def minIndices : List ℕ → ℕ
  | [] => 0
  | i :: is => is.foldl min i

/-- The locked start X used on pointer-up:
`startXRef.current ?? line.startX`. -/
def actualStartX (s : AppState) (l : LineSpan) : ℚ := s.startXRef.getD l.startX

/-- The locked line Y used on pointer-up: `lineYRef.current ?? line.y`. -/
def actualY (s : AppState) (l : LineSpan) : ℚ := s.lineYRef.getD l.y

/-- The tokens resolved by the gesture on pointer-up:
`findIntersectingWords(actualStartX, line.endX, actualY)` against the fresh
surface `elems`. -/
def intersectingOf (s : AppState) (elems : List (Option Elem)) (l : LineSpan) :
    List Token :=
  findIntersectingWords elems (actualStartX s l) l.endX (actualY s l)

/-- The selected text, `intersecting.map(w => w.text).join(' ')`. -/
def selectedTextOf (ts : List Token) : String :=
  String.intercalate " " (ts.map Token.text)

/-- The duplicate check:
`highlights.some(h => h.text.toLowerCase() === selectedText.toLowerCase())`. -/
def isDupSelection (hs : List Highlight) (sel : String) : Bool :=
  hs.any (fun h => decide (jsToLowerCase h.text = jsToLowerCase sel))

/-- The freshly committed highlight object
(`{ id: Date.now(), text, explanation: null, loading: true,
firstWordIndex: Math.min(...wordIndices) }`). -/
def newHighlightOf (now : ℕ) (ts : List Token) : Highlight :=
  { id := now
    text := selectedTextOf ts
    explanation := none
    loading := true
    firstWordIndex := minIndices (ts.map Token.index) }

/-- The sort `updated.sort((a, b) => a.firstWordIndex - b.firstWordIndex)`: a stable
sort by `firstWordIndex` (JS `Array.prototype.sort` is stable, and the
output of a stable sort is unique, so insertion sort realises it). -/
def sortHighlights (hs : List Highlight) : List Highlight :=
  List.insertionSort (fun a b => a.firstWordIndex ≤ b.firstWordIndex) hs

/-- JS object update `{ ...prev, [id]: v }` on an association list keyed by
highlight id: overwrite in place when the key exists, append otherwise. -/
def setAssoc (m : List (ℕ × List ℕ)) (k : ℕ) (v : List ℕ) : List (ℕ × List ℕ) :=
  if m.any (fun p => decide (p.1 = k)) then
    m.map (fun p => if p.1 = k then (k, v) else p)
  else m ++ [(k, v)]

/-- Key lookup on the association list (property access `obj[id]`). -/
def lookupAssoc : List (ℕ × List ℕ) → ℕ → Option (List ℕ)
  | [], _ => none
  | p :: ps, k => if p.1 = k then some p.2 else lookupAssoc ps k

/-- Handler `handlePointerDown`: arm the gesture when the device/modifier policy,
the spatial bound and line resolution all pass; otherwise no state change.
`articleRect` is `articleRef.current?.getBoundingClientRect()`. -/
def handlePointerDown (s : AppState) (elems : List (Option Elem))
    (articleRect : Option Rect) (e : PointerEvent) : AppState :=
  let isPen := e.pointerType = "pen"
  let isMouse := e.pointerType = "mouse"
  if isMouse ∧ e.shiftKey then s
  else if ¬ isPen ∧ ¬ isMouse then s
  else
    match articleRect with
    | none => s
    | some r =>
        if e.clientX < r.left ∨ e.clientX > r.right ∨
            e.clientY < r.top ∨ e.clientY > r.bottom then s
        else
          match findLineY elems e.clientY with
          | none => s
          | some lineY =>
              { s with
                isDrawing := true
                lineYRef := some lineY
                startXRef := some e.clientX
                line := some { startX := e.clientX, endX := e.clientX, y := lineY } }

/-- Handler `handlePointerMove`: while drawing, update only the trailing edge
(`endX`) of the visual span. -/
def handlePointerMove (s : AppState) (e : PointerEvent) : AppState :=
  if ¬ s.isDrawing ∨ s.lineYRef = none then s
  else { s with line := s.line.map (fun l => { l with endX := e.clientX }) }

/-- Handler `handlePointerUp` with the current surface `elems` and the clock reading
`now` (`Date.now()`).  The fire-and-forget call to `fetchExplanation` has no
synchronous state effect beyond `setLoadingId`; its completion is the
separate transition `fetchExplanationDone`. -/
def handlePointerUp (s : AppState) (elems : List (Option Elem)) (now : ℕ) :
    AppState :=
  match s.isDrawing, s.line with
  | true, some l =>
      let ts := intersectingOf s elems l
      let base :=
        if 0 < ts.length then
          if isDupSelection s.highlights (selectedTextOf ts) then s
          else
            let nh := newHighlightOf now ts
            { s with
              highlights := sortHighlights (nh :: s.highlights)
              highlightedWordIndices :=
                setAssoc s.highlightedWordIndices nh.id (ts.map Token.index)
              loadingId := some nh.id }
        else s
      { base with
        isDrawing := false, line := none, lineYRef := none, startXRef := none }
  | _, _ => { s with isDrawing := false, line := none }

/-- The state update performed when `fetchExplanation id text` settles: only
highlights whose `id` matches are given the final explanation string and
`loading := false` (the success and error branches differ only in the
string), and `loadingId` is cleared. -/
def applyExplanation (id : ℕ) (expl : String) (h : Highlight) : Highlight :=
  if h.id = id then { h with explanation := some expl, loading := false } else h

/-- The whole-state effect of a settled fetch: update every matching
highlight and clear `loadingId`. -/
def fetchExplanationDone (s : AppState) (id : ℕ) (expl : String) : AppState :=
  { s with
    highlights := s.highlights.map (applyExplanation id expl)
    loadingId := none }

/-- Function `removeHighlight`: drop the card and its word-index entry; the JS
`filter` / `delete` pair preserves the relative order of the rest. -/
def removeHighlight (s : AppState) (id : ℕ) : AppState :=
  { s with
    highlights := s.highlights.filter (fun h => decide (h.id ≠ id))
    highlightedWordIndices :=
      s.highlightedWordIndices.filter (fun p => decide (p.1 ≠ id)) }

/-- Function `clearAll`. -/
def clearAll (s : AppState) : AppState :=
  { s with highlights := [], highlightedWordIndices := [] }

/-- Function `loadNewContent`: replace the document and reset all highlight and
gesture state (scrolling and selection clearing are DOM-only effects). -/
def loadNewContent (s : AppState) (c : Content) : AppState :=
  { s with
    highlights := []
    highlightedWordIndices := []
    wordRefs := []
    line := none
    isDrawing := false
    content := c
    contentError := none }

/-- The sample document shipped with the component. -/
def sampleContent : Content :=
  { type := "sample"
    text := "The Renaissance was a fervent period of European cultural, artistic, political and economic \"rebirth\" following the Middle Ages."
    title := "The Renaissance"
    source := none
    isMarkdown := false }

/-- The initial component state. -/
def initialState : AppState :=
  { highlights := []
    loadingId := none
    line := none
    isDrawing := false
    highlightedWordIndices := []
    lineYRef := none
    startXRef := none
    wordRefs := []
    content := sampleContent
    contentError := none }

/-- States reachable from the initial state by the modelled transitions,
with arbitrary live surfaces, events, clock readings and fetch results. -/
inductive Reachable : AppState → Prop
  | init : Reachable initialState
  | down (s : AppState) (elems : List (Option Elem)) (r : Option Rect)
      (e : PointerEvent) : Reachable s → Reachable (handlePointerDown s elems r e)
  | move (s : AppState) (e : PointerEvent) :
      Reachable s → Reachable (handlePointerMove s e)
  | up (s : AppState) (elems : List (Option Elem)) (now : ℕ) :
      Reachable s → Reachable (handlePointerUp s elems now)
  | fetchDone (s : AppState) (id : ℕ) (expl : String) :
      Reachable s → Reachable (fetchExplanationDone s id expl)
  | remove (s : AppState) (id : ℕ) : Reachable s → Reachable (removeHighlight s id)
  | clear (s : AppState) : Reachable s → Reachable (clearAll s)
  | load (s : AppState) (c : Content) : Reachable s → Reachable (loadNewContent s c)

/-- The JS regex `\s` character class (ECMAScript WhiteSpace and
LineTerminator code points). -/
def jsWhitespace (c : Char) : Bool :=
  decide (c.toNat = 9 ∨ c.toNat = 10 ∨ c.toNat = 11 ∨ c.toNat = 12 ∨
    c.toNat = 13 ∨ c.toNat = 32 ∨ c.toNat = 0xa0 ∨ c.toNat = 0x1680 ∨
    (0x2000 ≤ c.toNat ∧ c.toNat ≤ 0x200a) ∨ c.toNat = 0x2028 ∨
    c.toNat = 0x2029 ∨ c.toNat = 0x202f ∨ c.toNat = 0x205f ∨
    c.toNat = 0x3000 ∨ c.toNat = 0xfeff)

/-- The `(?:\s|>)` terminator after a tag name. -/
def spaceOrGt (c : Char) : Bool := jsWhitespace c || decide (c = '>')

/-- Case-insensitive match of the literal word `w` (given in lowercase
ASCII) at the head of `l`, followed by `\s` or `>`: the body of
`(?:strong|em)(?:\s|>)` under the `i` flag. -/
def matchWordCI : List Char → List Char → Bool
  | [], rest =>
      match rest with
      | c :: _ => spaceOrGt c
      | [] => false
  | _ :: _, [] => false
  | w :: ws, c :: cs => decide (c.toLower = w) && matchWordCI ws cs

/-- Pattern `(?:strong|em)(?:\s|>)` at the head of `l` (case-insensitive). -/
def startsAllowedName (l : List Char) : Bool :=
  matchWordCI ['s', 't', 'r', 'o', 'n', 'g'] l || matchWordCI ['e', 'm'] l

/-- Pattern `\/?(?:strong|em)(?:\s|>)` at the head of `l`: the lookahead body of
both sanitizer regexes (text after the `<`).  Since neither tag name starts
with a slash, the optional `\/?` consumes a leading `/` exactly when one is
present. -/
def allowedTail (l : List Char) : Bool :=
  if l.head? = some '/' then startsAllowedName l.tail else startsAllowedName l

/-- First sanitizer pass,
`.replace(/<(?!\/?(?:strong|em)(?:\s|>))[^>]*>/gi, '')`: a global
left-to-right scan deleting every complete tag (`<` up to the next `>`)
whose text after `<` does not start with an allowed tag opener.  `fuel`
bounds the recursion; `pass1` supplies `l.length`, which suffices because
every step consumes at least one character. -/
def pass1Go : ℕ → List Char → List Char
  | 0, _ => []
  | _, [] => []
  | fuel + 1, c :: rest =>
      if c = '<' ∧ allowedTail rest = false ∧ rest.contains '>' then
        pass1Go fuel ((rest.dropWhile (fun x => decide (x ≠ '>'))).drop 1)
      else c :: pass1Go fuel rest

def pass1 (l : List Char) : List Char := pass1Go l.length l

/-- Second sanitizer pass, `.replace(/</g, cb)`: every `<` whose suffix does
not start with `</?(?:strong|em)(?:\s|>)` becomes `&lt;`.  The callback
tests `str.slice(offset)` against the intermediate string, which the
left-to-right recursion reproduces exactly. -/
def pass2 : List Char → List Char
  | [] => []
  | c :: rest =>
      if c = '<' then
        if allowedTail rest then '<' :: pass2 rest
        else '&' :: 'l' :: 't' :: ';' :: pass2 rest
      else c :: pass2 rest

/-- Function `sanitizeHtml`: first `if (!html) return ''` (the empty string is the only
falsy `String`), then the two replace passes. -/
def sanitizeHtml (html : String) : String :=
  if html = "" then "" else String.mk (pass2 (pass1 html.data))

/-- Every `<` in the list is immediately followed by an allowed tag opener
`/?(strong|em)(\s|>)` (case-insensitive). -/
def allLtWellFormed : List Char → Bool
  | [] => true
  | c :: rest =>
      (if c = '<' then allowedTail rest else true) && allLtWellFormed rest

/-- The complete HTML tags occurring in a character list: every maximal
`<...>` span (from a `<` to the first following `>`).  Used to state the
counterexample about tags surviving `sanitizeHtml`. -/
def tagsInGo : ℕ → List Char → List (List Char)
  | 0, _ => []
  | _, [] => []
  | fuel + 1, c :: rest =>
      if c = '<' ∧ rest.contains '>' then
        ('<' :: rest.takeWhile (fun x => decide (x ≠ '>')) ++ ['>']) ::
          tagsInGo fuel ((rest.dropWhile (fun x => decide (x ≠ '>'))).drop 1)
      else tagsInGo fuel rest

def tagsIn (s : String) : List (List Char) := tagsInGo s.data.length s.data

/-- The card body rendered for a settled highlight
(`dangerouslySetInnerHTML={{ __html: sanitizeHtml(highlight.explanation) }}`;
a `null` explanation is the falsy case of `sanitizeHtml`). -/
def cardInnerHtml (h : Highlight) : String :=
  match h.explanation with
  | none => ""
  | some e => sanitizeHtml e

/-! ## Concrete surfaces and states used by witnesses and counterexamples -/

/-- A one-word surface: a single token "word" with box `[0,10] × [0,10]`. -/
def exElemsOne : List (Option Elem) :=
  [some { text := "word", rect := { left := 0, right := 10, top := 0, bottom := 10 }, dataIndex := none }]

/-- The token produced by `exElemsOne`. -/
def exTokenOne : Token :=
  { index := 0, text := "word", rect := { left := 0, right := 10, top := 0, bottom := 10 } }

/-- A two-line surface: centers at Y = 10 and Y = 40. -/
def exElemsTwoLines : List (Option Elem) :=
  [some { text := "a", rect := { left := 0, right := 10, top := 0, bottom := 20 }, dataIndex := none },
   some { text := "b", rect := { left := 0, right := 10, top := 30, bottom := 50 }, dataIndex := none }]

/-- Highlights used by the C7 witness. -/
def exHighlightA : Highlight :=
  { id := 1, text := "a", explanation := none, loading := true, firstWordIndex := 0 }

def exHighlightB : Highlight :=
  { id := 2, text := "b", explanation := none, loading := true, firstWordIndex := 1 }

/-- A state holding the two C7 witness highlights. -/
def exStateTwoCards : AppState :=
  { initialState with highlights := [exHighlightA, exHighlightB] }

/-- A large article rect containing the witness pointer events. -/
def exRectBig : Rect := { left := 0, right := 100, top := 0, bottom := 100 }

/-- A plain mouse press at (5, 5). -/
def exEventAt5 : PointerEvent :=
  { pointerType := "mouse", shiftKey := false, clientX := 5, clientY := 5 }

/-- A one-word surface reading "alpha". -/
def exElemsAlpha : List (Option Elem) :=
  [some { text := "alpha", rect := { left := 0, right := 10, top := 0, bottom := 10 },
          dataIndex := none }]

/-- A one-word surface reading "beta" at the same place. -/
def exElemsBeta : List (Option Elem) :=
  [some { text := "beta", rect := { left := 0, right := 10, top := 0, bottom := 10 },
          dataIndex := none }]

/-- The highlight committed from `exElemsAlpha` at clock reading 5. -/
def exAlphaHighlight : Highlight :=
  { id := 5, text := "alpha", explanation := none, loading := true, firstWordIndex := 0 }

/-- A gesture run: arm on the alpha surface, release at clock 5, re-arm on
the beta surface, release at clock 5 again (two commits inside the same
millisecond). -/
def exS1 : AppState := handlePointerDown initialState exElemsAlpha (some exRectBig) exEventAt5

def exS2 : AppState := handlePointerUp exS1 exElemsAlpha 5

def exS3 : AppState := handlePointerDown exS2 exElemsBeta (some exRectBig) exEventAt5

def exS4 : AppState := handlePointerUp exS3 exElemsBeta 5

/-- The five-token document of the worked example: tokens 0 to 4 on the
line with center Y = 100, boxes chosen so that a sweep over `[10, 120]`
overlaps exactly tokens 1 to 3. -/
def exElemsFox : List (Option Elem) :=
  [some { text := "The", rect := { left := 0, right := 8, top := 95, bottom := 105 },
          dataIndex := none },
   some { text := "quick", rect := { left := 20, right := 45, top := 95, bottom := 105 },
          dataIndex := none },
   some { text := "brown", rect := { left := 50, right := 80, top := 95, bottom := 105 },
          dataIndex := none },
   some { text := "fox", rect := { left := 90, right := 118, top := 95, bottom := 105 },
          dataIndex := none },
   some { text := "jumps", rect := { left := 125, right := 150, top := 95, bottom := 105 },
          dataIndex := none }]

/-- The locked span of the worked-example sweep. -/
def exLineFox : LineSpan := { startX := 10, endX := 120, y := 100 }

/-- The armed state just before releasing the worked-example sweep. -/
def exStateFox : AppState :=
  { initialState with
    isDrawing := true
    line := some exLineFox
    startXRef := some 10
    lineYRef := some 100 }

/-- An armed state over the alpha surface whose registry already holds the
same text in different case. -/
def exStateDup : AppState :=
  { initialState with
    highlights :=
      [{ id := 3, text := "Alpha", explanation := some "done", loading := false,
         firstWordIndex := 0 }]
    isDrawing := true
    line := some { startX := 5, endX := 5, y := 5 }
    startXRef := some 5
    lineYRef := some 5 }

/-- Stable-sort relation instances needed for `sortHighlights`. -/
instance : IsTotal Highlight (fun a b => a.firstWordIndex ≤ b.firstWordIndex) :=
  ⟨fun a b => Nat.le_total a.firstWordIndex b.firstWordIndex⟩

instance : IsTrans Highlight (fun a b => a.firstWordIndex ≤ b.firstWordIndex) :=
  ⟨fun _ _ _ hab hbc => Nat.le_trans hab hbc⟩

/-! ## General lemmas about the embedded functions -/

/-- A filter whose predicate holds exactly at `t` returns the occurrences of
`t`. -/
theorem filter_eq_replicate_count {α : Type} [DecidableEq α] (p : α → Bool) (t : α) :
    ∀ l : List α, (∀ u ∈ l, p u = true ↔ u = t) →
      l.filter p = List.replicate (l.count t) t := by
  intro l
  induction l with
  | nil => intro _; rfl
  | cons u l ih =>
      intro h
      have hu := h u (List.mem_cons_self u l)
      have hl : ∀ v ∈ l, p v = true ↔ v = t :=
        fun v hv => h v (List.mem_cons_of_mem u hv)
      cases hp : p u with
      | false =>
          have hne : u ≠ t := fun he => by
            have := hu.mpr he
            rw [hp] at this
            exact Bool.false_ne_true this
          rw [List.filter_cons_of_neg (by simp [hp]), List.count_cons]
          simp only [beq_iff_eq, hne, if_false]
          exact ih hl
      | true =>
          have heq : u = t := hu.mp hp
          subst heq
          rw [List.filter_cons_of_pos (by simp [hp]), List.count_cons]
          simp only [beq_iff_eq, if_true, List.replicate_succ]
          rw [ih hl]

/-- Claim C1: the span resolver returns exactly the snapshot tokens within
15 units of the locked line whose box overlaps the swept interval, in
snapshot order; and a zero-width sweep over a line holding a single token
whose box contains the swept X returns exactly that token. -/
theorem claim_C1_span_resolver (elems : List (Option Elem)) (sx ex ly : ℚ) :
    List.Sublist (findIntersectingWords elems sx ex ly) (getWordData elems) ∧
    (∀ t, t ∈ findIntersectingWords elems sx ex ly ↔
      t ∈ getWordData elems ∧ |t.rect.centerY - ly| ≤ 15 ∧
        min sx ex ≤ t.rect.right ∧ t.rect.left ≤ max sx ex) ∧
    (∀ x t, t ∈ getWordData elems →
      (getWordData elems).count t = 1 →
      |t.rect.centerY - ly| ≤ 15 →
      t.rect.left ≤ x → x ≤ t.rect.right →
      (∀ u ∈ getWordData elems, u ≠ t → 15 < |u.rect.centerY - ly|) →
      findIntersectingWords elems x x ly = [t]) := by
  refine ⟨List.filter_sublist _, ?_, ?_⟩
  · intro t
    simp [findIntersectingWords, List.mem_filter]
  · intro x t ht hcount hcy hleft hright hothers
    have hkey : ∀ u ∈ getWordData elems,
        (decide (|u.rect.centerY - ly| ≤ 15 ∧
          min x x ≤ u.rect.right ∧ u.rect.left ≤ max x x) = true) ↔ u = t := by
      intro u hu
      constructor
      · intro hdec
        by_contra hne
        have := hothers u hu hne
        have hprop := of_decide_eq_true hdec
        exact absurd hprop.1 (not_le.mpr this)
      · intro he
        subst he
        refine decide_eq_true_eq.mpr ⟨hcy, ?_, ?_⟩
        · rw [min_self]; exact hright
        · rw [max_self]; exact hleft
    have := filter_eq_replicate_count _ t (getWordData elems) hkey
    unfold findIntersectingWords
    rw [this, hcount]
    rfl

/-- Claim C1 witness: a zero-width sweep at X = 7 on the one-word surface
returns exactly that word. -/
theorem claim_C1_witness : findIntersectingWords exElemsOne 7 7 5 = [exTokenOne] :=
  (claim_C1_span_resolver exElemsOne 7 7 5).2.2 7 exTokenOne
    (by with_unfolding_all decide)
    (by with_unfolding_all decide)
    (by with_unfolding_all decide)
    (by with_unfolding_all decide)
    (by with_unfolding_all decide)
    (by
      intro u hu hne
      exfalso
      have : u = exTokenOne := by
        have h1 : getWordData exElemsOne = [exTokenOne] := by with_unfolding_all decide
        rw [h1] at hu
        simpa using hu
      exact hne this)

/-- Claim C9 (amended): every token in the snapshot has strictly positive
width; the filter tests `rect.width > 0` only, not the area. -/
theorem claim_C9_amended_width (elems : List (Option Elem)) (t : Token)
    (h : t ∈ getWordData elems) : 0 < t.rect.width := by
  unfold getWordData at h
  have := (List.mem_filter.mp h).2
  exact of_decide_eq_true this

/-- Claim C9 witness: the token of the one-word surface has positive width. -/
theorem claim_C9_witness : (0 : ℚ) < exTokenOne.rect.width :=
  claim_C9_amended_width exElemsOne exTokenOne (by with_unfolding_all decide)

/-- Claim C9 counterexample: a token whose box has positive width but zero
height — hence zero area — is not excluded: the snapshot keeps it. -/
theorem claim_C9_counterexample :
    getWordData
        [some { text := "x", rect := { left := 0, right := 10, top := 5, bottom := 5 },
                dataIndex := none }] =
      [{ index := 0, text := "x",
         rect := { left := 0, right := 10, top := 5, bottom := 5 } }] ∧
    ({ left := 0, right := 10, top := 5, bottom := 5 } : Rect).width *
      (({ left := 0, right := 10, top := 5, bottom := 5 } : Rect).bottom -
        ({ left := 0, right := 10, top := 5, bottom := 5 } : Rect).top) = 0 := by
  constructor
  · with_unfolding_all decide
  · with_unfolding_all decide

/-- The fold of `closestFold` computes `pickFirstMin`. -/
theorem foldl_closestStep (py : ℚ) (rs : List ℚ) : ∀ b : ℚ,
    rs.foldl (closestStep py) (some (b, |py - b|)) =
      some (pickFirstMin py b rs, |py - pickFirstMin py b rs|) := by
  induction rs with
  | nil => intro b; rfl
  | cons r rs ih =>
      intro b
      rw [List.foldl_cons]
      by_cases h : |py - r| < |py - b|
      · have hstep : closestStep py (some (b, |py - b|)) r = some (r, |py - r|) := by
          simp [closestStep, h]
        rw [hstep, ih r]
        simp [pickFirstMin, h]
      · have hstep : closestStep py (some (b, |py - b|)) r = some (b, |py - b|) := by
          simp [closestStep, h]
        rw [hstep, ih b]
        simp [pickFirstMin, h]

/-- The scan over a non-empty representative list picks the first minimum. -/
theorem closestFold_cons (py b : ℚ) (rs : List ℚ) :
    closestFold py (b :: rs) = some (pickFirstMin py b rs) := by
  unfold closestFold
  rw [List.foldl_cons]
  have hstep : closestStep py none b = some (b, |py - b|) := rfl
  rw [hstep, foldl_closestStep]
  rfl

/-- Characterisation of `pickFirstMin`: it occurs in the list, every
earlier entry is strictly farther from `py`, and no entry is closer. -/
theorem pickFirstMin_spec (py : ℚ) (rs : List ℚ) : ∀ b : ℚ,
    ∃ l1 l2, b :: rs = l1 ++ pickFirstMin py b rs :: l2 ∧
      (∀ r ∈ l1, |py - pickFirstMin py b rs| < |py - r|) ∧
      (∀ r ∈ b :: rs, |py - pickFirstMin py b rs| ≤ |py - r|) := by
  induction rs with
  | nil =>
      intro b
      refine ⟨[], [], rfl, by simp, ?_⟩
      intro r hr
      have : r = b := by simpa using hr
      subst this
      simp [pickFirstMin]
  | cons r rs ih =>
      intro b
      by_cases h : |py - r| < |py - b|
      · have hpick : pickFirstMin py b (r :: rs) = pickFirstMin py r rs := by
          simp [pickFirstMin, h]
        obtain ⟨l1, l2, heq, hstrict, hmin⟩ := ih r
        rw [hpick]
        refine ⟨b :: l1, l2, ?_, ?_, ?_⟩
        · simpa using congrArg (List.cons b) heq
        · intro u hu
          rcases List.mem_cons.mp hu with hub | hul
          · subst hub
            exact lt_of_le_of_lt (hmin r (List.mem_cons_self r rs)) h
          · exact hstrict u hul
        · intro u hu
          rcases List.mem_cons.mp hu with hub | hul
          · subst hub
            exact le_of_lt (lt_of_le_of_lt (hmin r (List.mem_cons_self r rs)) h)
          · exact hmin u hul
      · have hpick : pickFirstMin py b (r :: rs) = pickFirstMin py b rs := by
          simp [pickFirstMin, h]
        obtain ⟨l1, l2, heq, hstrict, hmin⟩ := ih b
        rw [hpick]
        cases l1 with
        | nil =>
            have heq' : b :: rs = pickFirstMin py b rs :: l2 := by simpa using heq
            have hb : b = pickFirstMin py b rs := ((List.cons.injEq _ _ _ _).mp heq').1
            refine ⟨[], r :: rs, ?_, by simp, ?_⟩
            · simp only [List.nil_append]
              rw [← hb]
            · intro u hu
              rcases List.mem_cons.mp hu with hub | hur
              · subst hub; rw [← hb]
              · rcases List.mem_cons.mp hur with hur' | hurs
                · subst hur'
                  rw [← hb]
                  exact le_of_not_lt h
                · exact hmin u (List.mem_cons_of_mem b hurs)
        | cons a l1' =>
            have heq' : b :: rs = a :: (l1' ++ pickFirstMin py b rs :: l2) := by
              simpa using heq
            have hab : b = a := ((List.cons.injEq _ _ _ _).mp heq').1
            have hrs : rs = l1' ++ pickFirstMin py b rs :: l2 :=
              ((List.cons.injEq _ _ _ _).mp heq').2
            have hstrictb : |py - pickFirstMin py b rs| < |py - b| := by
              nth_rewrite 2 [hab]
              exact hstrict a (List.mem_cons_self a l1')
            refine ⟨b :: r :: l1', l2, ?_, ?_, ?_⟩
            · simp only [List.cons_append]
              exact congrArg (List.cons b) (congrArg (List.cons r) hrs)
            · intro u hu
              rcases List.mem_cons.mp hu with hub | hu'
              · subst hub; exact hstrictb
              · rcases List.mem_cons.mp hu' with hur | hul
                · subst hur
                  exact lt_of_lt_of_le hstrictb (le_of_not_lt h)
                · exact hstrict u (List.mem_cons_of_mem a hul)
            · intro u hu
              rcases List.mem_cons.mp hu with hub | hu'
              · subst hub; exact le_of_lt hstrictb
              · rcases List.mem_cons.mp hu' with hur | hurs
                · subst hur
                  exact le_of_lt (lt_of_lt_of_le hstrictb (le_of_not_lt h))
                · exact hmin u (List.mem_cons_of_mem b hurs)

/-- Inserting into the bucket list never yields the empty list. -/
theorem insertGroup_ne_nil (k : ℤ) (v : ℚ) (gs : List (ℤ × List ℚ)) :
    insertGroup k v gs ≠ [] := by
  cases gs with
  | nil => simp [insertGroup]
  | cons p rest =>
      obtain ⟨k', vs⟩ := p
      simp only [insertGroup]
      split <;> simp

/-- A bucket step never yields the empty list. -/
theorem groupStep_ne_nil (gs : List (ℤ × List ℚ)) (w : Token) :
    groupStep gs w ≠ [] := insertGroup_ne_nil _ _ _

/-- Folding bucket steps over a non-empty word list (or from a non-empty
accumulator) yields a non-empty bucket list. -/
theorem foldl_groupStep_ne_nil (ws : List Token) : ∀ gs : List (ℤ × List ℚ),
    (gs ≠ [] ∨ ws ≠ []) → ws.foldl groupStep gs ≠ [] := by
  induction ws with
  | nil =>
      intro gs h
      rcases h with h | h
      · simpa using h
      · exact absurd rfl h
  | cons w ws ih =>
      intro gs _
      rw [List.foldl_cons]
      exact ih (groupStep gs w) (Or.inl (groupStep_ne_nil gs w))

/-- The scan order contains every bucket. -/
theorem mem_scanGroups {g : ℤ × List ℚ} {gs : List (ℤ × List ℚ)}
    (h : g ∈ gs) : g ∈ scanGroups gs := by
  unfold scanGroups
  by_cases hk : isArrayIndexKey g.1
  · exact List.mem_append_left _
      ((List.mem_insertionSort _).mpr (List.mem_filter.mpr ⟨h, hk⟩))
  · exact List.mem_append_right _
      (List.mem_filter.mpr ⟨h, by simpa using hk⟩)

/-- A non-empty word list yields a non-empty representative list. -/
theorem lineReps_ne_nil {ws : List Token} (h : ws ≠ []) : lineReps ws ≠ [] := by
  unfold lineReps
  have hb : buildGroups ws ≠ [] := foldl_groupStep_ne_nil ws [] (Or.inr h)
  obtain ⟨g, hg⟩ := List.exists_mem_of_ne_nil _ hb
  have : g ∈ scanGroups (buildGroups ws) := mem_scanGroups hg
  have : groupAvg g ∈ (scanGroups (buildGroups ws)).map groupAvg :=
    List.mem_map_of_mem groupAvg this
  exact List.ne_nil_of_mem this

/-- Claim C2: the line locator returns `null` exactly when the snapshot is
empty; otherwise it returns a bucket mean at minimal distance from the
pointer, an exact tie going to the first-scanned bucket. -/
theorem claim_C2_line_locator (elems : List (Option Elem)) (py : ℚ) :
    (findLineY elems py = none ↔ getWordData elems = []) ∧
    (∀ y, findLineY elems py = some y →
      ∃ l1 l2, lineReps (getWordData elems) = l1 ++ y :: l2 ∧
        (∀ r ∈ l1, |py - y| < |py - r|) ∧
        (∀ r ∈ lineReps (getWordData elems), |py - y| ≤ |py - r|)) := by
  by_cases hw : getWordData elems = []
  · constructor
    · simp [findLineY, hw]
    · intro y hy
      rw [findLineY] at hy
      simp [hw] at hy
  · have hr : lineReps (getWordData elems) ≠ [] := lineReps_ne_nil hw
    obtain ⟨b, rs, hbr⟩ := List.exists_cons_of_ne_nil hr
    have hfind : findLineY elems py = some (pickFirstMin py b rs) := by
      show (if getWordData elems = [] then none
        else closestFold py (lineReps (getWordData elems))) = some (pickFirstMin py b rs)
      rw [if_neg hw, hbr, closestFold_cons]
    constructor
    · rw [hfind]
      simp [hw]
    · intro y hy
      rw [hfind] at hy
      have hyeq : y = pickFirstMin py b rs := (Option.some.injEq _ _).mp hy |>.symm
      subst hyeq
      rw [hbr]
      exact pickFirstMin_spec py rs b

/-- Claim C2 witness: on the two-line surface (means 10 and 40), pointer
Y = 25 is an exact tie; the first-scanned bucket (mean 10) wins, and its
distance is no larger than that of the other bucket mean 40. -/
theorem claim_C2_witness :
    findLineY exElemsTwoLines 25 = some 10 ∧ |(25 : ℚ) - 10| ≤ |(25 : ℚ) - 40| := by
  have h := (claim_C2_line_locator exElemsTwoLines 25).2 10 (by with_unfolding_all decide)
  obtain ⟨l1, l2, _, _, hmin⟩ := h
  exact ⟨by with_unfolding_all decide, hmin 40 (by with_unfolding_all decide)⟩

/-- Claim C8: loading replacement content, from any state (mid-gesture
included), leaves an empty registry, an empty word-index map, no active
gesture and no visual span. -/
theorem claim_C8_load_new_content (s : AppState) (c : Content) :
    (loadNewContent s c).highlights = [] ∧
    (loadNewContent s c).highlightedWordIndices = [] ∧
    (loadNewContent s c).isDrawing = false ∧
    (loadNewContent s c).line = none :=
  ⟨rfl, rfl, rfl, rfl⟩

/-- The per-highlight explanation update leaves non-matching highlights
untouched. -/
theorem applyExplanation_of_ne {id : ℕ} {expl : String} {h : Highlight}
    (hne : h.id ≠ id) : applyExplanation id expl h = h := by
  unfold applyExplanation
  exact if_neg hne

/-- Claim C7: a settling explanation fetch mutates exactly the highlights
whose id matches (setting the explanation and clearing `loading`), leaves
every other highlight and the word-index map unchanged, and creates no
highlight; if no highlight carries the id, the highlight list is unchanged. -/
theorem claim_C7_fetch_frame (s : AppState) (id : ℕ) (expl : String) :
    (fetchExplanationDone s id expl).highlights.length = s.highlights.length ∧
    (∀ i : ℕ, ∀ h : Highlight, s.highlights[i]? = some h →
      (fetchExplanationDone s id expl).highlights[i]? =
        some (if h.id = id then { h with explanation := some expl, loading := false }
          else h)) ∧
    ((∀ h ∈ s.highlights, h.id ≠ id) →
      (fetchExplanationDone s id expl).highlights = s.highlights) ∧
    (fetchExplanationDone s id expl).highlightedWordIndices =
      s.highlightedWordIndices := by
  refine ⟨List.length_map _ _, ?_, ?_, rfl⟩
  · intro i h hi
    show (s.highlights.map (applyExplanation id expl))[i]? = _
    rw [List.getElem?_map, hi]
    rfl
  · intro hall
    show s.highlights.map (applyExplanation id expl) = s.highlights
    have : ∀ h ∈ s.highlights, applyExplanation id expl h = (fun a => a) h :=
      fun h hh => applyExplanation_of_ne (hall h hh)
    rw [List.map_congr_left this, List.map_id']

/-- Claim C7 witness: settling id 1 updates card 1, leaves card 2 as it
was, and settling an id that no card carries changes nothing. -/
theorem claim_C7_witness :
    (fetchExplanationDone exStateTwoCards 1 "E").highlights[0]? =
      some { exHighlightA with explanation := some "E", loading := false } ∧
    (fetchExplanationDone exStateTwoCards 1 "E").highlights[1]? = some exHighlightB ∧
    (fetchExplanationDone exStateTwoCards 3 "E").highlights =
      exStateTwoCards.highlights := by
  refine ⟨?_, ?_, ?_⟩
  · have h := (claim_C7_fetch_frame exStateTwoCards 1 "E").2.1 0 exHighlightA rfl
    simpa [exHighlightA] using h
  · have h := (claim_C7_fetch_frame exStateTwoCards 1 "E").2.1 1 exHighlightB rfl
    simpa [exHighlightB] using h
  · exact (claim_C7_fetch_frame exStateTwoCards 3 "E").2.2.1 (by decide)

/-! ## The pointer-up branches -/

/-- The commit branch of `handlePointerUp`: drawing, a span present, a
non-empty token set, and no duplicate text. -/
theorem handlePointerUp_commit (s : AppState) (elems : List (Option Elem)) (now : ℕ)
    (l : LineSpan) (hd : s.isDrawing = true) (hl : s.line = some l)
    (hpos : 0 < (intersectingOf s elems l).length)
    (hdup : isDupSelection s.highlights (selectedTextOf (intersectingOf s elems l)) = false) :
    handlePointerUp s elems now =
      { s with
        highlights :=
          sortHighlights (newHighlightOf now (intersectingOf s elems l) :: s.highlights)
        highlightedWordIndices :=
          setAssoc s.highlightedWordIndices now ((intersectingOf s elems l).map Token.index)
        loadingId := some now
        isDrawing := false
        line := none
        lineYRef := none
        startXRef := none } := by
  unfold handlePointerUp
  rw [hd, hl]
  simp only [if_pos hpos, hdup, Bool.false_eq_true, if_false]
  rfl

/-- The duplicate branch of `handlePointerUp`: the gesture is consumed but
nothing is committed. -/
theorem handlePointerUp_dup (s : AppState) (elems : List (Option Elem)) (now : ℕ)
    (l : LineSpan) (hd : s.isDrawing = true) (hl : s.line = some l)
    (hpos : 0 < (intersectingOf s elems l).length)
    (hdup : isDupSelection s.highlights (selectedTextOf (intersectingOf s elems l)) = true) :
    handlePointerUp s elems now =
      { s with isDrawing := false, line := none, lineYRef := none, startXRef := none } := by
  unfold handlePointerUp
  rw [hd, hl]
  simp only [if_pos hpos, hdup, if_true]

/-- Case analysis of the highlight list after pointer-up: it is unchanged,
or the commit conditions held and it was resorted with the new highlight. -/
theorem handlePointerUp_highlights_cases (s : AppState) (elems : List (Option Elem))
    (now : ℕ) :
    (handlePointerUp s elems now).highlights = s.highlights ∨
    ∃ l, s.isDrawing = true ∧ s.line = some l ∧
      0 < (intersectingOf s elems l).length ∧
      isDupSelection s.highlights (selectedTextOf (intersectingOf s elems l)) = false ∧
      (handlePointerUp s elems now).highlights =
        sortHighlights (newHighlightOf now (intersectingOf s elems l) :: s.highlights) := by
  cases hd : s.isDrawing with
  | false =>
      left
      unfold handlePointerUp
      rw [hd]
  | true =>
      cases hl : s.line with
      | none =>
          left
          unfold handlePointerUp
          rw [hd, hl]
      | some l =>
          by_cases hpos : 0 < (intersectingOf s elems l).length
          · cases hdup : isDupSelection s.highlights
                (selectedTextOf (intersectingOf s elems l)) with
            | true =>
                left
                rw [handlePointerUp_dup s elems now l hd hl hpos hdup]
            | false =>
                right
                refine ⟨l, rfl, rfl, hpos, hdup, ?_⟩
                rw [handlePointerUp_commit s elems now l hd hl hpos hdup]
          · left
            unfold handlePointerUp
            rw [hd, hl]
            simp only [if_neg hpos]

/-- Same case analysis for the word-index map. -/
theorem handlePointerUp_wordIndices_cases (s : AppState) (elems : List (Option Elem))
    (now : ℕ) :
    (handlePointerUp s elems now).highlightedWordIndices = s.highlightedWordIndices ∨
    ∃ l, (handlePointerUp s elems now).highlightedWordIndices =
      setAssoc s.highlightedWordIndices now ((intersectingOf s elems l).map Token.index) := by
  cases hd : s.isDrawing with
  | false =>
      left
      unfold handlePointerUp
      rw [hd]
  | true =>
      cases hl : s.line with
      | none =>
          left
          unfold handlePointerUp
          rw [hd, hl]
      | some l =>
          by_cases hpos : 0 < (intersectingOf s elems l).length
          · cases hdup : isDupSelection s.highlights
                (selectedTextOf (intersectingOf s elems l)) with
            | true =>
                left
                rw [handlePointerUp_dup s elems now l hd hl hpos hdup]
            | false =>
                right
                refine ⟨l, ?_⟩
                rw [handlePointerUp_commit s elems now l hd hl hpos hdup]
          · left
            unfold handlePointerUp
            rw [hd, hl]
            simp only [if_neg hpos]

/-- Pointer-down never changes the highlight list. -/
theorem handlePointerDown_highlights (s : AppState) (elems : List (Option Elem))
    (r : Option Rect) (e : PointerEvent) :
    (handlePointerDown s elems r e).highlights = s.highlights := by
  unfold handlePointerDown
  dsimp only
  split
  · rfl
  · split
    · rfl
    · split
      · rfl
      · split
        · rfl
        · split
          · rfl
          · rfl

/-- Pointer-down never changes the word-index map. -/
theorem handlePointerDown_wordIndices (s : AppState) (elems : List (Option Elem))
    (r : Option Rect) (e : PointerEvent) :
    (handlePointerDown s elems r e).highlightedWordIndices =
      s.highlightedWordIndices := by
  unfold handlePointerDown
  dsimp only
  split
  · rfl
  · split
    · rfl
    · split
      · rfl
      · split
        · rfl
        · split
          · rfl
          · rfl

/-- Pointer-move never changes the highlight list. -/
theorem handlePointerMove_highlights (s : AppState) (e : PointerEvent) :
    (handlePointerMove s e).highlights = s.highlights := by
  unfold handlePointerMove
  split
  all_goals rfl

/-- The minimum fold of `Math.min(...l)`: it yields an element of the list
that bounds every element from below. -/
theorem foldl_min_spec (xs : List ℕ) : ∀ x : ℕ,
    (xs.foldl min x = x ∨ xs.foldl min x ∈ xs) ∧
      xs.foldl min x ≤ x ∧ ∀ i ∈ xs, xs.foldl min x ≤ i := by
  induction xs with
  | nil => intro x; exact ⟨Or.inl rfl, le_refl x, by simp⟩
  | cons y ys ih =>
      intro x
      rw [List.foldl_cons]
      obtain ⟨hmem, hle, hall⟩ := ih (min x y)
      refine ⟨?_, ?_, ?_⟩
      · rcases hmem with hm | hm
        · rcases min_choice x y with hc | hc
          · left; rw [hm, hc]
          · right; rw [hm, hc]; exact List.mem_cons_self y ys
        · right; exact List.mem_cons_of_mem y hm
      · exact le_trans hle (min_le_left x y)
      · intro i hi
        rcases List.mem_cons.mp hi with hiy | hiys
        · subst hiy; exact le_trans hle (min_le_right x i)
        · exact hall i hiys

/-- Specification of `minIndices` on non-empty lists. -/
theorem minIndices_spec (l : List ℕ) (h : l ≠ []) :
    minIndices l ∈ l ∧ ∀ i ∈ l, minIndices l ≤ i := by
  cases l with
  | nil => exact absurd rfl h
  | cons x xs =>
      obtain ⟨hmem, hle, hall⟩ := foldl_min_spec xs x
      constructor
      · rcases hmem with hm | hm
        · rw [minIndices, hm]; exact List.mem_cons_self x xs
        · exact List.mem_cons_of_mem x hm
      · intro i hi
        rcases List.mem_cons.mp hi with hix | hixs
        · subst hix; exact hle
        · exact hall i hixs

/-- Updating an existing key in place makes it retrievable. -/
theorem lookupAssoc_map_update (k : ℕ) (v : List ℕ) : ∀ m : List (ℕ × List ℕ),
    m.any (fun p => decide (p.1 = k)) = true →
      lookupAssoc (m.map (fun p => if p.1 = k then (k, v) else p)) k = some v := by
  intro m
  induction m with
  | nil => intro h; simp at h
  | cons p ps ih =>
      intro h
      by_cases hp : p.1 = k
      · rw [List.map_cons, if_pos hp]
        unfold lookupAssoc
        rw [if_pos rfl]
      · rw [List.map_cons, if_neg hp]
        unfold lookupAssoc
        rw [if_neg hp]
        apply ih
        rcases List.any_eq_true.mp h with ⟨q, hq, hqk⟩
        rcases List.mem_cons.mp hq with hqp | hqs
        · exact absurd (of_decide_eq_true (hqp ▸ hqk)) hp
        · exact List.any_eq_true.mpr ⟨q, hqs, hqk⟩

/-- Appending a fresh key makes it retrievable. -/
theorem lookupAssoc_append_fresh (k : ℕ) (v : List ℕ) : ∀ m : List (ℕ × List ℕ),
    m.any (fun p => decide (p.1 = k)) = false →
      lookupAssoc (m ++ [(k, v)]) k = some v := by
  intro m
  induction m with
  | nil =>
      intro _
      simp [lookupAssoc]
  | cons p ps ih =>
      intro h
      have hp : p.1 ≠ k := by
        intro he
        have hdec : decide (p.1 = k) = true := decide_eq_true he
        have : (p :: ps).any (fun q => decide (q.1 = k)) = true := by
          rw [List.any_cons, hdec, Bool.true_or]
        rw [h] at this
        exact Bool.false_ne_true this
      have hps : ps.any (fun q => decide (q.1 = k)) = false := by
        cases hx : ps.any (fun q => decide (q.1 = k)) with
        | false => rfl
        | true =>
            have : (p :: ps).any (fun q => decide (q.1 = k)) = true := by
              rw [List.any_cons, hx, Bool.or_true]
            rw [h] at this
            exact absurd this Bool.false_ne_true
      rw [List.cons_append]
      unfold lookupAssoc
      rw [if_neg hp]
      exact ih hps

/-- The JS object update is retrievable at the written key. -/
theorem lookupAssoc_setAssoc (m : List (ℕ × List ℕ)) (k : ℕ) (v : List ℕ) :
    lookupAssoc (setAssoc m k v) k = some v := by
  unfold setAssoc
  cases h : m.any (fun p => decide (p.1 = k)) with
  | true =>
      rw [if_pos rfl]
      exact lookupAssoc_map_update k v m h
  | false =>
      rw [if_neg Bool.false_ne_true]
      exact lookupAssoc_append_fresh k v m h

/-! ## Sorting and invariants of the registry -/

/-- The stable sort is a permutation of its input. -/
theorem sortHighlights_perm (hs : List Highlight) :
    List.Perm (sortHighlights hs) hs := List.perm_insertionSort _ _

/-- The stable sort leaves the documents ordered by `firstWordIndex`. -/
theorem sortHighlights_sorted (hs : List Highlight) :
    List.Sorted (fun a b => a.firstWordIndex ≤ b.firstWordIndex) (sortHighlights hs) :=
  List.sorted_insertionSort _ _

/-- The explanation update never changes a highlight's text. -/
theorem applyExplanation_text (id : ℕ) (expl : String) (h : Highlight) :
    (applyExplanation id expl h).text = h.text := by
  unfold applyExplanation
  split <;> rfl

/-- The explanation update never changes a highlight's document-order key. -/
theorem applyExplanation_firstWordIndex (id : ℕ) (expl : String) (h : Highlight) :
    (applyExplanation id expl h).firstWordIndex = h.firstWordIndex := by
  unfold applyExplanation
  split <;> rfl

/-- A failing duplicate check means every existing card's lowercased text
differs from the lowercased selection. -/
theorem isDupSelection_eq_false {hs : List Highlight} {sel : String} :
    isDupSelection hs sel = false ↔
      ∀ h ∈ hs, jsToLowerCase h.text ≠ jsToLowerCase sel := by
  unfold isDupSelection
  simp

/-- Registry invariant: at every reachable state the highlight list is
sorted by `firstWordIndex`. -/
theorem reachable_sorted : ∀ s : AppState, Reachable s →
    List.Sorted (fun a b : Highlight => a.firstWordIndex ≤ b.firstWordIndex)
      s.highlights := by
  intro s h
  induction h with
  | init => exact List.sorted_nil
  | down s elems r e _ ih => rw [handlePointerDown_highlights]; exact ih
  | move s e _ ih => rw [handlePointerMove_highlights]; exact ih
  | up s elems now _ ih =>
      rcases handlePointerUp_highlights_cases s elems now with hc | ⟨l, _, _, _, _, hc⟩
      · rw [hc]; exact ih
      · rw [hc]; exact sortHighlights_sorted _
  | fetchDone s id expl _ ih =>
      show List.Sorted _ (s.highlights.map (applyExplanation id expl))
      rw [List.Sorted, List.pairwise_map]
      refine List.Pairwise.imp ?_ ih
      intro a b hab
      rw [applyExplanation_firstWordIndex, applyExplanation_firstWordIndex]
      exact hab
  | remove s id _ ih =>
      exact List.Pairwise.sublist (List.filter_sublist _) ih
  | clear s _ _ => exact List.sorted_nil
  | load s c _ _ => exact List.sorted_nil

/-- Registry invariant: at every reachable state no two highlights have
case-insensitively equal text. -/
theorem reachable_distinct_text : ∀ s : AppState, Reachable s →
    List.Pairwise (fun a b : Highlight => jsToLowerCase a.text ≠ jsToLowerCase b.text)
      s.highlights := by
  intro s h
  induction h with
  | init => exact List.Pairwise.nil
  | down s elems r e _ ih => rw [handlePointerDown_highlights]; exact ih
  | move s e _ ih => rw [handlePointerMove_highlights]; exact ih
  | up s elems now _ ih =>
      rcases handlePointerUp_highlights_cases s elems now with hc | ⟨l, _, _, _, hdup, hc⟩
      · rw [hc]; exact ih
      · rw [hc]
        have hperm :=
          sortHighlights_perm (newHighlightOf now (intersectingOf s elems l) :: s.highlights)
        refine (hperm.pairwise_iff ?_).mpr ?_
        · intro a b hab
          exact Ne.symm hab
        · refine List.pairwise_cons.mpr ⟨?_, ih⟩
          intro h' hh'
          have hall := isDupSelection_eq_false.mp hdup h' hh'
          exact fun he => hall (Eq.symm he)
  | fetchDone s id expl _ ih =>
      show List.Pairwise _ (s.highlights.map (applyExplanation id expl))
      rw [List.pairwise_map]
      refine List.Pairwise.imp ?_ ih
      intro a b hab
      rw [applyExplanation_text, applyExplanation_text]
      exact hab
  | remove s id _ ih =>
      exact List.Pairwise.sublist (List.filter_sublist _) ih
  | clear s _ _ => exact List.Pairwise.nil
  | load s c _ _ => exact List.Pairwise.nil

/-- Claim C4: the registry is sorted non-decreasing by `firstWordIndex` at
every reachable state (in particular after every commit, regardless of
gesture order), and removal keeps the remaining highlights in relative
order. -/
theorem claim_C4_document_order :
    (∀ s : AppState, Reachable s →
      List.Sorted (fun a b : Highlight => a.firstWordIndex ≤ b.firstWordIndex)
        s.highlights) ∧
    (∀ (s : AppState) (id : ℕ),
      List.Sublist (removeHighlight s id).highlights s.highlights) := by
  refine ⟨reachable_sorted, ?_⟩
  intro s id
  exact List.filter_sublist _

/-- Claim C4 witness: the state reached after the two-gesture run is
sorted, and removal there preserves the order of the rest. -/
theorem claim_C4_witness :
    List.Sorted (fun a b : Highlight => a.firstWordIndex ≤ b.firstWordIndex)
      exS4.highlights ∧
    List.Sublist (removeHighlight exS4 5).highlights exS4.highlights := by
  refine ⟨claim_C4_document_order.1 exS4 ?_, claim_C4_document_order.2 exS4 5⟩
  exact Reachable.up exS3 exElemsBeta 5
    (Reachable.down exS2 exElemsBeta (some exRectBig) exEventAt5
      (Reachable.up exS1 exElemsAlpha 5
        (Reachable.down initialState exElemsAlpha (some exRectBig) exEventAt5
          Reachable.init)))

/-- Claim C5: committing a selection whose text case-insensitively equals an
existing card's text is a silent no-op (registry, word-index map and loading
id unchanged), and at every reachable state no two highlights have
case-insensitively equal text. -/
theorem claim_C5_dedup_invariant :
    (∀ (s : AppState) (elems : List (Option Elem)) (now : ℕ) (l : LineSpan),
      s.isDrawing = true → s.line = some l →
      0 < (intersectingOf s elems l).length →
      isDupSelection s.highlights (selectedTextOf (intersectingOf s elems l)) = true →
      (handlePointerUp s elems now).highlights = s.highlights ∧
      (handlePointerUp s elems now).highlightedWordIndices = s.highlightedWordIndices ∧
      (handlePointerUp s elems now).loadingId = s.loadingId) ∧
    (∀ s : AppState, Reachable s →
      List.Pairwise (fun a b : Highlight => jsToLowerCase a.text ≠ jsToLowerCase b.text)
        s.highlights) := by
  constructor
  · intro s elems now l hd hl hpos hdup
    rw [handlePointerUp_dup s elems now l hd hl hpos hdup]
    exact ⟨rfl, rfl, rfl⟩
  · exact reachable_distinct_text

/-- Claim C5 witness: over a registry holding "Alpha", sweeping the word
"alpha" commits nothing, and the two-gesture run keeps pairwise distinct
lowercased texts. -/
theorem claim_C5_witness :
    ((handlePointerUp exStateDup exElemsAlpha 9).highlights = exStateDup.highlights ∧
      (handlePointerUp exStateDup exElemsAlpha 9).highlightedWordIndices =
        exStateDup.highlightedWordIndices ∧
      (handlePointerUp exStateDup exElemsAlpha 9).loadingId = exStateDup.loadingId) ∧
    List.Pairwise (fun a b : Highlight => jsToLowerCase a.text ≠ jsToLowerCase b.text)
      exS2.highlights := by
  constructor
  · exact claim_C5_dedup_invariant.1 exStateDup exElemsAlpha 9
      { startX := 5, endX := 5, y := 5 } rfl rfl (by with_unfolding_all decide)
      (by with_unfolding_all decide)
  · exact claim_C5_dedup_invariant.2 exS2
      (Reachable.up exS1 exElemsAlpha 5
        (Reachable.down initialState exElemsAlpha (some exRectBig) exEventAt5
          Reachable.init))

/-- Claim C3: a committing pointer-up creates the highlight whose text joins
the intersected tokens' texts with single spaces in snapshot order — which
is ascending index order whenever the snapshot's indices ascend — whose
`firstWordIndex` is the minimum intersected index, and whose word-index map
entry is exactly the intersected index list. -/
theorem claim_C3_commit_highlight (s : AppState) (elems : List (Option Elem)) (now : ℕ)
    (l : LineSpan) (hd : s.isDrawing = true) (hl : s.line = some l)
    (hpos : 0 < (intersectingOf s elems l).length)
    (hdup : isDupSelection s.highlights (selectedTextOf (intersectingOf s elems l)) = false)
    (hsorted : List.Pairwise (· < ·) ((getWordData elems).map Token.index)) :
    newHighlightOf now (intersectingOf s elems l) ∈
      (handlePointerUp s elems now).highlights ∧
    (newHighlightOf now (intersectingOf s elems l)).text =
      String.intercalate " " ((intersectingOf s elems l).map Token.text) ∧
    List.Pairwise (· < ·) ((intersectingOf s elems l).map Token.index) ∧
    (newHighlightOf now (intersectingOf s elems l)).firstWordIndex ∈
      (intersectingOf s elems l).map Token.index ∧
    (∀ i ∈ (intersectingOf s elems l).map Token.index,
      (newHighlightOf now (intersectingOf s elems l)).firstWordIndex ≤ i) ∧
    lookupAssoc (handlePointerUp s elems now).highlightedWordIndices now =
      some ((intersectingOf s elems l).map Token.index) := by
  have hcommit := handlePointerUp_commit s elems now l hd hl hpos hdup
  have hsubtok : List.Sublist (intersectingOf s elems l) (getWordData elems) :=
    List.filter_sublist _
  have hsub : List.Sublist ((intersectingOf s elems l).map Token.index)
      ((getWordData elems).map Token.index) := hsubtok.map Token.index
  have hmapne : (intersectingOf s elems l).map Token.index ≠ [] := by
    apply List.ne_nil_of_length_pos
    rw [List.length_map]
    exact hpos
  obtain ⟨hmem, hall⟩ := minIndices_spec _ hmapne
  refine ⟨?_, rfl, ?_, hmem, hall, ?_⟩
  · rw [hcommit]
    exact (List.mem_insertionSort _).mpr (List.mem_cons_self _ _)
  · exact List.Pairwise.sublist hsub hsorted
  · rw [hcommit]
    exact lookupAssoc_setAssoc _ _ _

/-- Claim C3 witness: the worked example.  Sweeping `[10, 120]` on the line
of the five-token document commits a highlight with text
"quick brown fox", key 1, and word indices `[1, 2, 3]`. -/
theorem claim_C3_witness :
    (newHighlightOf 42 (intersectingOf exStateFox exElemsFox exLineFox)).text =
      "quick brown fox" ∧
    (newHighlightOf 42 (intersectingOf exStateFox exElemsFox exLineFox)).firstWordIndex = 1 ∧
    newHighlightOf 42 (intersectingOf exStateFox exElemsFox exLineFox) ∈
      (handlePointerUp exStateFox exElemsFox 42).highlights ∧
    lookupAssoc (handlePointerUp exStateFox exElemsFox 42).highlightedWordIndices 42 =
      some [1, 2, 3] := by
  have h := claim_C3_commit_highlight exStateFox exElemsFox 42 exLineFox rfl rfl
    (by with_unfolding_all decide) (by with_unfolding_all decide)
    (by with_unfolding_all decide)
  refine ⟨by with_unfolding_all decide, by with_unfolding_all decide, h.1, ?_⟩
  have hidx : (intersectingOf exStateFox exElemsFox exLineFox).map Token.index = [1, 2, 3] := by
    with_unfolding_all decide
  rw [← hidx]
  exact h.2.2.2.2.2

/-- Claim C6 (amended): the committed highlight's identifier is the
commit-time clock reading, so it strictly exceeds every existing identifier
precisely when the clock reading does; two commits at one clock reading
reuse the same identifier. -/
theorem claim_C6_amended_ids (s : AppState) (elems : List (Option Elem)) (now : ℕ)
    (hlt : ∀ h ∈ s.highlights, h.id < now) :
    ∀ h ∈ (handlePointerUp s elems now).highlights, ∀ h' ∈ s.highlights,
      h ∉ s.highlights → h.id = now ∧ h'.id < h.id := by
  rcases handlePointerUp_highlights_cases s elems now with hc | ⟨l, _, _, _, _, hc⟩
  · intro h hh h' hh' hnot
    rw [hc] at hh
    exact absurd hh hnot
  · intro h hh h' hh' hnot
    rw [hc] at hh
    unfold sortHighlights at hh
    have hmem := (List.mem_insertionSort _).mp hh
    rcases List.mem_cons.mp hmem with hnew | hold
    · subst hnew
      exact ⟨rfl, hlt h' hh'⟩
    · exact absurd hold hnot

/-- Claim C6 witness: from the armed state holding the id-5 "alpha" card,
a commit at clock reading 7 yields id 7, strictly above 5. -/
theorem claim_C6_witness :
    ({ id := 7, text := "beta", explanation := none, loading := true,
        firstWordIndex := 0 } : Highlight).id = 7 ∧
    exAlphaHighlight.id <
      ({ id := 7, text := "beta", explanation := none, loading := true,
          firstWordIndex := 0 } : Highlight).id :=
  claim_C6_amended_ids exS3 exElemsBeta 7 (by with_unfolding_all decide)
    { id := 7, text := "beta", explanation := none, loading := true, firstWordIndex := 0 }
    (by with_unfolding_all decide)
    exAlphaHighlight (by with_unfolding_all decide)
    (by with_unfolding_all decide)

/-- Claim C6 counterexample: two accepted commits inside the same clock
millisecond (`Date.now()` reading 5 twice) both get identifier 5 — the
second identifier is not strictly greater than the first. -/
theorem claim_C6_counterexample :
    exS4.highlights.map Highlight.id = [5, 5] ∧
    exS4.highlights.map Highlight.text = ["beta", "alpha"] := by
  constructor
  · with_unfolding_all decide
  · with_unfolding_all decide

/-! ## The sanitizer -/

/-- The escape pass preserves a case-insensitive word match: the matched
prefix contains no `<`, and the pass only rewrites `<` characters. -/
theorem matchWordCI_pass2 : ∀ (w l : List Char), (∀ c ∈ w, c ≠ '<') →
    matchWordCI w l = true → matchWordCI w (pass2 l) = true := by
  intro w
  induction w with
  | nil =>
      intro l _ h
      cases l with
      | nil => simp [matchWordCI] at h
      | cons c cs =>
          have hc : spaceOrGt c = true := by simpa [matchWordCI] using h
          have hcne : c ≠ '<' := by
            intro he
            subst he
            have : spaceOrGt '<' = false := by decide
            rw [this] at hc
            exact Bool.false_ne_true hc
          simp only [pass2, if_neg hcne]
          simpa [matchWordCI] using hc
  | cons a ws ih =>
      intro l hne h
      cases l with
      | nil => simp [matchWordCI] at h
      | cons c cs =>
          have h1 : c.toLower = a ∧ matchWordCI ws cs = true := by
            simpa [matchWordCI, Bool.and_eq_true] using h
          have hane : a ≠ '<' := hne a (List.mem_cons_self a ws)
          have hcne : c ≠ '<' := by
            intro he
            subst he
            apply hane
            rw [← h1.1]
            decide
          simp only [pass2, if_neg hcne]
          simp only [matchWordCI]
          rw [decide_eq_true h1.1, Bool.true_and]
          exact ih cs (fun x hx => hne x (List.mem_cons_of_mem a hx)) h1.2

/-- The escape pass preserves an allowed tag-name match. -/
theorem startsAllowedName_pass2 (l : List Char) (h : startsAllowedName l = true) :
    startsAllowedName (pass2 l) = true := by
  unfold startsAllowedName at h ⊢
  rcases Bool.or_eq_true_iff.mp h with h1 | h2
  · exact Bool.or_eq_true_iff.mpr
      (Or.inl (matchWordCI_pass2 _ l (by decide) h1))
  · exact Bool.or_eq_true_iff.mpr
      (Or.inr (matchWordCI_pass2 _ l (by decide) h2))

/-- The escape pass preserves an allowed tag opener. -/
theorem allowedTail_pass2 (l : List Char) (h : allowedTail l = true) :
    allowedTail (pass2 l) = true := by
  cases l with
  | nil =>
      have : allowedTail ([] : List Char) = false := by decide
      rw [this] at h
      exact absurd h Bool.false_ne_true
  | cons c cs =>
      by_cases hsl : c = '/'
      · subst hsl
        have hh : startsAllowedName cs = true := by
          simpa [allowedTail] using h
        have hp2 : pass2 ('/' :: cs) = '/' :: pass2 cs := by
          simp [pass2]
        rw [hp2]
        simpa [allowedTail] using startsAllowedName_pass2 cs hh
      · have hh : startsAllowedName (c :: cs) = true := by
          simpa [allowedTail, hsl] using h
        by_cases hlt : c = '<'
        · exfalso
          subst hlt
          have h1 : decide ('<'.toLower = 's') = false := by decide
          have h2 : decide ('<'.toLower = 'e') = false := by decide
          simp [startsAllowedName, matchWordCI, h1, h2] at hh
        · have hp2 : pass2 (c :: cs) = c :: pass2 cs := by
            simp [pass2, hlt]
          rw [hp2]
          have := startsAllowedName_pass2 (c :: cs) hh
          rw [hp2] at this
          simpa [allowedTail, hsl] using this

/-- Every `<` surviving the escape pass opens an allowed tag. -/
theorem pass2_wellFormed : ∀ l : List Char, allLtWellFormed (pass2 l) = true := by
  intro l
  induction l with
  | nil => rfl
  | cons c cs ih =>
      by_cases hc : c = '<'
      · subst hc
        by_cases ha : allowedTail cs = true
        · simp only [pass2, if_pos rfl, if_pos ha]
          simp only [allLtWellFormed, if_pos rfl]
          rw [allowedTail_pass2 cs ha, ih]
          rfl
        · simp only [pass2, if_pos rfl, if_neg ha]
          simp only [allLtWellFormed]
          rw [if_neg (by decide), if_neg (by decide), if_neg (by decide),
            if_neg (by decide)]
          simpa using ih
      · simp only [pass2, if_neg hc]
        simp only [allLtWellFormed, if_neg hc]
        simpa using ih

/-- Claim C10 (amended): in the sanitizer's output every `<` opens a
`strong` or `em` tag (opening or closing, any letter case, attributes
allowed before the closing `>`); every complete tag other than those is
removed by the first pass and every other `<` is escaped to `&lt;` by the
second; and the rendered card body of a settled highlight is exactly the
sanitizer applied to its explanation. -/
theorem claim_C10_sanitize (s : String) (h : Highlight) (e : String) :
    allLtWellFormed (sanitizeHtml s).data = true ∧
    (h.explanation = some e → cardInnerHtml h = sanitizeHtml e) ∧
    allLtWellFormed (cardInnerHtml h).data = true := by
  refine ⟨?_, ?_, ?_⟩
  · unfold sanitizeHtml
    by_cases hs : s = ""
    · rw [if_pos hs]
      rfl
    · rw [if_neg hs]
      exact pass2_wellFormed _
  · intro he
    unfold cardInnerHtml
    rw [he]
  · unfold cardInnerHtml
    cases h.explanation with
    | none => rfl
    | some ex =>
        show allLtWellFormed (sanitizeHtml ex).data = true
        unfold sanitizeHtml
        by_cases hs : ex = ""
        · rw [if_pos hs]
          rfl
        · rw [if_neg hs]
          exact pass2_wellFormed _

/-- Claim C10 witness: a disallowed tag is stripped and a stray `<` is
escaped, the output is well formed, and the settled card body goes through
the sanitizer. -/
theorem claim_C10_witness :
    allLtWellFormed (sanitizeHtml "<b>bold</b> a<b &lt;").data = true ∧
    sanitizeHtml "<b>bold</b> a<b &lt;" = "bold a&lt;b &lt;" ∧
    cardInnerHtml
        { id := 1, text := "t", explanation := some "<b>x</b>", loading := false,
          firstWordIndex := 0 } =
      sanitizeHtml "<b>x</b>" ∧
    sanitizeHtml "<b>x</b>" = "x" := by
  refine ⟨(claim_C10_sanitize "<b>bold</b> a<b &lt;"
      { id := 1, text := "t", explanation := some "<b>x</b>", loading := false,
        firstWordIndex := 0 } "<b>x</b>").1,
    by with_unfolding_all decide,
    (claim_C10_sanitize "<b>bold</b> a<b &lt;"
      { id := 1, text := "t", explanation := some "<b>x</b>", loading := false,
        firstWordIndex := 0 } "<b>x</b>").2.1 rfl,
    by with_unfolding_all decide⟩

/-- Claim C10 counterexample: the sanitizer keeps a `strong` tag carrying an
attribute verbatim, so the output can contain a complete HTML tag that is
none of the four exact strings `<strong>`, `</strong>`, `<em>`, `</em>`. -/
theorem claim_C10_counterexample :
    sanitizeHtml "<strong onclick=\"x()\">hi</strong>" =
      "<strong onclick=\"x()\">hi</strong>" ∧
    tagsIn (sanitizeHtml "<strong onclick=\"x()\">hi</strong>") =
      ["<strong onclick=\"x()\">".data, "</strong>".data] ∧
    "<strong onclick=\"x()\">".data ∉
      ["<strong>".data, "</strong>".data, "<em>".data, "</em>".data] := by
  refine ⟨?_, ?_, ?_⟩
  · with_unfolding_all decide
  · with_unfolding_all decide
  · with_unfolding_all decide

end HighlightReader
